import Mathlib

/-!
Shallow embedding of the minihost realtime processing core
(src/projects/libminihost/minihost.cpp, minihost_chain.cpp and
src/projects/libminihost_audio/midi_ringbuffer.cpp), together with proofs
of the functional properties of its specification.

Conventions of the embedding:
* C `int` values are modelled as `Int` (they stay far from 2^31 here, so no
  wrap-around is modelled); array indices and frame counts that the code has
  already validated as non-negative are modelled as `Nat`.
* C `float` values are modelled as `Rat`: the code only copies, compares and
  clamps them, so no rounding behaviour is relevant.
* The opaque JUCE plugin instance is modelled by an oracle: processing a
  block is observable as the sequence of backend calls (sub-block start,
  length, delivered MIDI) plus the MIDI the backend emits, supplied by a
  function from the chunk start position to an event list.
-/

namespace Minihost

/-- One short MIDI message plus its timing, mirroring `MH_MidiEvent`
(minihost.h): `sample_offset` is an `int` in C, so it is an `Int` here. -/
structure MH_MidiEvent where
  sample_offset : Int
  status : Nat
  data1 : Nat
  data2 : Nat
deriving Repr, DecidableEq

/-- One parameter automation point, mirroring `MH_ParamChange` (minihost.h). -/
structure MH_ParamChange where
  sample_offset : Int
  param_index : Int
  value : Rat
deriving Repr, DecidableEq

/-- One chain automation point, mirroring `MH_ChainParamChange`
(minihost_chain.h): adds the target plugin index. -/
structure MH_ChainParamChange where
  sample_offset : Int
  plugin_index : Int
  param_index : Int
  value : Rat
deriving Repr, DecidableEq

/-- JUCE `jlimit` on `Int`: `v < lo ? lo : hi < v ? hi : v`. -/
def jlimitI (lo hi v : Int) : Int :=
  if v < lo then lo else if hi < v then hi else v

/-- JUCE `jlimit` on `Rat` (models `jlimit(0.0f, 1.0f, value)`). -/
def jlimitQ (lo hi v : Rat) : Rat :=
  if v < lo then lo else if hi < v then hi else v

/-- The state of an opened plugin that the processing core reads, mirroring
the relevant fields of `MH_Plugin` (minihost.cpp) and `MH_Info`
(`mh_get_info` reports `inCh`/`outCh`/`latencySamples` of a successfully
opened instance). -/
structure MH_Plugin where
  maxBlockSize : Int
  numParams : Int
  inCh : Nat
  outCh : Nat
  latencySamples : Int
  tailSeconds : Rat
  sampleRate : Rat
deriving Repr, DecidableEq

/-- One invocation of the opaque backend (`inst->processBlock`): the start
frame of the processed sub-block inside the caller's buffers, its length,
and the MIDI events delivered to it (offsets local to the sub-block). -/
structure BackendCall where
  pos : Nat
  len : Nat
  midi : List MH_MidiEvent
deriving Repr, DecidableEq

/-- A MIDI oracle stands for the opaque plugin: it yields the MIDI events the
backend leaves in the buffer after processing the chunk that starts at the
given frame (offsets local to that chunk). -/
def MidiOracle : Type := Nat → List MH_MidiEvent

/-- Clamp an incoming event offset into the block, mirroring
`jlimit(0, nframes - 1, ev.sample_offset)` in `mh_process_midi_io`
(minihost.cpp:337). -/
def clampEventOffset (nframes : Int) (ev : MH_MidiEvent) : MH_MidiEvent :=
  { ev with sample_offset := jlimitI 0 (nframes - 1) ev.sample_offset }

/-- Shift an event offset by `delta` (used for chunk-local rebasing `-pos`
and output rebasing `+pos`). -/
def rebaseEvent (delta : Int) (ev : MH_MidiEvent) : MH_MidiEvent :=
  { ev with sample_offset := ev.sample_offset + delta }

/-- Observable outcome of `mh_process_midi_io`: the C return value, the
backend calls made, and the MIDI events reported through `midi_out` /
`num_midi_out`. -/
structure ProcResult where
  ret : Bool
  calls : List BackendCall
  midiOut : List MH_MidiEvent
deriving Repr, DecidableEq

/-- Model of `mh_process_midi_io` (minihost.cpp:281-372) for an opened
plugin (`p` and `p->inst` non-null).  The guard mirrors
`nframes < 0 || nframes > p->maxBlockSize`.  Every incoming event is added
with its offset clamped to `[0, nframes-1]`; the whole block is one backend
call; at most `midi_out_capacity` produced events are reported back. -/
def mh_process_midi_io (p : MH_Plugin) (oracle : MidiOracle) (nframes : Int)
    (midi_in : List MH_MidiEvent) (midi_out_capacity : Nat) : ProcResult :=
  if nframes < 0 ∨ p.maxBlockSize < nframes then ⟨false, [], []⟩
  else
    ⟨true, [⟨0, nframes.toNat, midi_in.map (clampEventOffset nframes)⟩],
      (oracle 0).take midi_out_capacity⟩

/-- The chunk boundary computed at the top of the automation loop
(minihost.cpp:596-602 and minihost_chain.cpp:361-367): start from `nframes`
and shrink to the first unconsumed change's offset exactly when that offset
is strictly greater than the cursor and strictly less than `nframes`. -/
def chunkBound (nframes pos : Nat) (next : Option Int) : Nat :=
  match next with
  | none => nframes
  | some off =>
      if (pos : Int) < off ∧ off < (nframes : Int) then off.toNat else nframes

/-- One parameter application performed by `setValueNotifyingHost` during the
automation loop: the target index and the (already clamped) value set. -/
structure ParamApply where
  param_index : Int
  value : Rat
deriving Repr, DecidableEq

/-- The parameter applications a batch of consumed changes performs
(minihost.cpp:604-616): a change is applied only when its `param_index` is
inside `[0, numParams)`, with its value clamped by `jlimit(0.0f, 1.0f, _)`;
out-of-range changes are consumed silently. -/
def appliesOf (numParams : Int) (pcs : List MH_ParamChange) : List ParamApply :=
  (pcs.filter (fun pc => 0 ≤ pc.param_index ∧ pc.param_index < numParams)).map
    (fun pc => ⟨pc.param_index, jlimitQ 0 1 pc.value⟩)

/-- One iteration of the chunked automation loop of `mh_process_auto`:
the cursor at entry, the chunk boundary chosen, the parameter applications
performed before the backend call, and the backend call itself. -/
structure AutoChunk where
  pos : Nat
  chunk_end : Nat
  applied : List ParamApply
  call : BackendCall
deriving Repr, DecidableEq

/-- The chunked automation loop of `mh_process_auto` (minihost.cpp:593-690),
started at cursor `pos` with the still-unconsumed parameter changes `pcs`,
the still-unconsumed MIDI events `midis` (`midi_idx` is modelled by passing
the remaining suffix) and `outCount` events already written to `midi_out`.
Returns the chunk trace and the MIDI output appended from this point on. -/
def autoLoop (numParams : Int) (oracle : MidiOracle) (nframes capacity : Nat) :
    Nat → List MH_ParamChange → List MH_MidiEvent → Nat →
    List AutoChunk × List MH_MidiEvent
  | pos, pcs, midis, outCount =>
    if h : pos < nframes then
      let ce := chunkBound nframes pos (pcs.head?.map (fun pc => pc.sample_offset))
      let taken := pcs.takeWhile (fun pc => pc.sample_offset ≤ (pos : Int))
      let rest := pcs.dropWhile (fun pc => pc.sample_offset ≤ (pos : Int))
      if h2 : ce ≤ pos then ([], [])
      else
        let delivered :=
          ((midis.takeWhile (fun ev => ev.sample_offset < (ce : Int))).filter
            (fun ev => (pos : Int) ≤ ev.sample_offset)).map
              (rebaseEvent (-(pos : Int)))
        let restMidi := midis.dropWhile (fun ev => ev.sample_offset < (ce : Int))
        let produced :=
          ((oracle pos).map (rebaseEvent (pos : Int))).take (capacity - outCount)
        let next := autoLoop numParams oracle nframes capacity ce rest restMidi
          (outCount + produced.length)
        (⟨pos, ce, appliesOf numParams taken, ⟨pos, ce - pos, delivered⟩⟩ :: next.1,
         produced ++ next.2)
    else ([], [])
termination_by pos _ _ _ => nframes - pos
decreasing_by simp_wf; omega

/-- Observable outcome of `mh_process_auto`: return value, the per-chunk
trace, and the MIDI events reported through `midi_out`. -/
structure AutoResult where
  ret : Bool
  chunks : List AutoChunk
  midiOut : List MH_MidiEvent
deriving Repr, DecidableEq

/-- Model of `mh_process_auto` (minihost.cpp:560-696): after the
`nframes` guard, an empty change list delegates the whole block to
`mh_process_midi_io` (lines 580-586), otherwise the chunked loop runs. -/
def mh_process_auto (p : MH_Plugin) (oracle : MidiOracle) (nframes : Int)
    (midi_in : List MH_MidiEvent) (capacity : Nat)
    (pcs : List MH_ParamChange) : AutoResult :=
  if nframes < 0 ∨ p.maxBlockSize < nframes then ⟨false, [], []⟩
  else if pcs.isEmpty then
    let r := mh_process_midi_io p oracle nframes midi_in capacity
    ⟨r.ret, r.calls.map (fun c => ⟨c.pos, c.pos + c.len, [], c⟩), r.midiOut⟩
  else
    let r := autoLoop p.numParams oracle nframes.toNat capacity 0 pcs midi_in 0
    ⟨true, r.1, r.2⟩

/-! ### Plugin chain (minihost_chain.cpp) -/

/-- Construction failure of `mh_chain_create`, mirroring the error strings
written into `err_buf` (each variant that concerns a single stage carries
the offending stage index, as the message text does). -/
inductive ChainCreateErr where
  | emptyOrNull : ChainCreateErr
  | nullPluginAt : Nat → ChainCreateErr
  | sampleRateMismatch : Nat → ChainCreateErr
deriving Repr, DecidableEq

/-- The chain state built by `mh_chain_create`, mirroring `MH_PluginChain`
(minihost_chain.cpp:13-29).  `inter_channels` records the channel count
each intermediate buffer was allocated with. -/
structure MH_Chain where
  plugins : List MH_Plugin
  max_block_size : Int
  sample_rate : Rat
  num_input_channels : Nat
  num_output_channels : Nat
  stage_channels : List Nat
  inter_channels : List Nat
deriving Repr, DecidableEq

/-- The null-entry scan of `mh_chain_create` (minihost_chain.cpp:47-56):
index of the first null plugin, if any. -/
def firstNullIdx : List (Option MH_Plugin) → Option Nat
  | [] => none
  | none :: _ => some 0
  | some _ :: rest => (firstNullIdx rest).map (· + 1)

/-- The sample-rate scan of `mh_chain_create` (minihost_chain.cpp:59-72)
over the plugins after the first: index (relative to the scanned list) of
the first plugin whose rate differs from `r0` by more than `0.1`. -/
def firstRateMismatch (r0 : Rat) : List MH_Plugin → Option Nat
  | [] => none
  | p :: rest =>
      if 1/10 < |p.sampleRate - r0| then some 0
      else (firstRateMismatch r0 rest).map (· + 1)

/-- Strip the `Option` wrappers from a list known to contain no `none`. -/
def unwrapPlugins : List (Option MH_Plugin) → List MH_Plugin
  | [] => []
  | none :: rest => unwrapPlugins rest
  | some p :: rest => p :: unwrapPlugins rest

/-- Model of `mh_chain_create` (minihost_chain.cpp:37-137).  For opened
plugins `mh_get_info` always returns 1 (its only failure modes are null
arguments), so the `infos` loop cannot fail in this model.  On success the
intermediate buffer between stages `i` and `i+1` is allocated with
`max(out_ch(i), in_ch(i+1))` channels (lines 90-96, 120-134). -/
def mh_chain_create (ps : List (Option MH_Plugin)) : Except ChainCreateErr MH_Chain :=
  if ps.isEmpty then .error .emptyOrNull
  else
    match firstNullIdx ps with
    | some i => .error (.nullPluginAt i)
    | none =>
      match unwrapPlugins ps with
      | [] => .error .emptyOrNull
      | p0 :: tail =>
        match firstRateMismatch p0.sampleRate tail with
        | some j => .error (.sampleRateMismatch (j + 1))
        | none =>
          .ok { plugins := p0 :: tail
              , max_block_size := 8192
              , sample_rate := p0.sampleRate
              , num_input_channels := p0.inCh
              , num_output_channels := ((p0 :: tail).getLastD p0).outCh
              , stage_channels := (p0 :: tail).map (fun p => p.outCh)
              , inter_channels :=
                  List.zipWith (fun a b => max a.outCh b.inCh) (p0 :: tail) tail }

/-- Total latency of a chain (minihost_chain.cpp:250-260): per-stage
latencies summed. -/
def mh_chain_get_latency_samples (c : MH_Chain) : Int :=
  c.plugins.foldl (fun acc p => acc + p.latencySamples) 0

/-- Total tail of a chain (minihost_chain.cpp:449-461): fold that keeps the
largest per-stage tail, starting from `0.0`. -/
def mh_chain_get_tail_seconds (c : MH_Chain) : Rat :=
  c.plugins.foldl (fun m p => if m < p.tailSeconds then p.tailSeconds else m) 0

/-- A chain MIDI oracle: stage index and global chunk-start position to the
MIDI events that stage's backend leaves after processing that chunk. -/
def ChainOracle : Type := Nat → Nat → List MH_MidiEvent

/-- Observable outcome of `mh_chain_process_midi_io`: the C return value,
the backend calls made tagged with their stage index, and the MIDI output
reported back (collected from stage 0 only). -/
structure ChainProcResult where
  ret : Bool
  calls : List (Nat × BackendCall)
  midiOut : List MH_MidiEvent
deriving Repr, DecidableEq

/-- The middle/last stages of a multi-plugin chain call
(minihost_chain.cpp:195-247): each is `mh_process` = `mh_process_midi_io`
with no MIDI in or out; processing aborts at the first failing stage. -/
def chainRestProcess (oracle : ChainOracle) (nframes : Int) :
    List MH_Plugin → Nat → Bool × List (Nat × BackendCall)
  | [], _ => (true, [])
  | p :: ps, i =>
      let r := mh_process_midi_io p (oracle i) nframes [] 0
      if r.ret then
        let next := chainRestProcess oracle nframes ps (i + 1)
        (next.1, r.calls.map (fun call => (i, call)) ++ next.2)
      else (false, [])

/-- Model of `mh_chain_process_midi_io` (minihost_chain.cpp:155-248).
Guard: `nframes <= 0 || nframes > chain->max_block_size`.  A single-plugin
chain delegates directly (lines 176-182); otherwise stage 0 receives the
MIDI input and provides the MIDI output, and the remaining stages process
without MIDI. -/
def mh_chain_process_midi_io (c : MH_Chain) (oracle : ChainOracle) (nframes : Int)
    (midi_in : List MH_MidiEvent) (capacity : Nat) : ChainProcResult :=
  if nframes ≤ 0 ∨ c.max_block_size < nframes then ⟨false, [], []⟩
  else
    match c.plugins with
    | [] => ⟨false, [], []⟩
    | [p] =>
        let r := mh_process_midi_io p (oracle 0) nframes midi_in capacity
        ⟨r.ret, r.calls.map (fun call => (0, call)), r.midiOut⟩
    | p0 :: p1 :: rest =>
        let r0 := mh_process_midi_io p0 (oracle 0) nframes midi_in capacity
        if r0.ret then
          let next := chainRestProcess oracle nframes (p1 :: rest) 1
          ⟨next.1, r0.calls.map (fun call => (0, call)) ++ next.2, r0.midiOut⟩
        else ⟨false, [], []⟩

/-- A serialized control-thread accessor invocation reached from a
processing entry point.  `setParam` stands for `mh_set_param`
(minihost.cpp:411-421), which acquires `p->stateMutex` before anything
else. -/
inductive ControlAccess where
  | setParam : Nat → Int → Rat → ControlAccess
deriving Repr, DecidableEq

/-- The `mh_set_param` invocations one batch of consumed chain changes
performs (minihost_chain.cpp:369-381): `mh_chain_get_plugin` yields a
plugin exactly when `0 <= plugin_index < plugins.size()`, and for each such
change `mh_set_param` is called (and locks the stage's `stateMutex`). -/
def chainLocksOf (numPlugins : Nat) (pcs : List MH_ChainParamChange) :
    List ControlAccess :=
  pcs.filterMap (fun pc =>
    if 0 ≤ pc.plugin_index ∧ pc.plugin_index < (numPlugins : Int)
    then some (ControlAccess.setParam pc.plugin_index.toNat pc.param_index pc.value)
    else none)

/-- Shift the recorded position of a backend call by the chunk start, the
pointer arithmetic of `inputs[ch] + current_sample`. -/
def shiftCall (pos : Nat) (sc : Nat × BackendCall) : Nat × BackendCall :=
  (sc.1, { sc.2 with pos := sc.2.pos + pos })

/-- The chunked automation loop of `mh_chain_process_auto`
(minihost_chain.cpp:358-441).  Per chunk the whole chain is processed via
`mh_chain_process_midi_io` with a fixed per-chunk MIDI out capacity of 256
(line 411), then the chunk's MIDI output is rebased by `+pos` and appended
up to the caller's remaining capacity.  The accumulated components are the
backend calls, the appended MIDI output, the serialized control accesses
performed, and the success flag. -/
def chainAutoLoop (c : MH_Chain) (oracle : ChainOracle) (nframes capacity : Nat) :
    Nat → List MH_ChainParamChange → List MH_MidiEvent → Nat →
    List (Nat × BackendCall) × List MH_MidiEvent × List ControlAccess × Bool
  | pos, pcs, midis, outCount =>
    if h : pos < nframes then
      let ce := chunkBound nframes pos (pcs.head?.map (fun pc => pc.sample_offset))
      let taken := pcs.takeWhile (fun pc => pc.sample_offset ≤ (pos : Int))
      let rest := pcs.dropWhile (fun pc => pc.sample_offset ≤ (pos : Int))
      let locks := chainLocksOf c.plugins.length taken
      if h2 : ce ≤ pos then ([], [], locks, true)
      else
        let delivered :=
          ((midis.takeWhile (fun ev => ev.sample_offset < (ce : Int))).filter
            (fun ev => (pos : Int) ≤ ev.sample_offset)).map
              (rebaseEvent (-(pos : Int)))
        let restMidi := midis.dropWhile (fun ev => ev.sample_offset < (ce : Int))
        let inner := mh_chain_process_midi_io c (fun s q => oracle s (q + pos))
          ((ce - pos : Nat) : Int) delivered 256
        if inner.ret then
          let appended :=
            (inner.midiOut.map (rebaseEvent (pos : Int))).take (capacity - outCount)
          let next := chainAutoLoop c oracle nframes capacity ce rest restMidi
            (outCount + appended.length)
          (inner.calls.map (shiftCall pos) ++ next.1, appended ++ next.2.1,
           locks ++ next.2.2.1, next.2.2.2)
        else (inner.calls.map (shiftCall pos), [], locks, false)
    else ([], [], [], true)
termination_by pos _ _ _ => nframes - pos
decreasing_by simp_wf; omega

/-- Observable outcome of `mh_chain_process_auto`: return value, backend
calls, reported MIDI output, and the serialized control-thread accessor
invocations performed on the way. -/
structure ChainAutoResult where
  ret : Bool
  calls : List (Nat × BackendCall)
  midiOut : List MH_MidiEvent
  locks : List ControlAccess
deriving Repr, DecidableEq

/-- Model of `mh_chain_process_auto` (minihost_chain.cpp:323-447): after
the `nframes` guard, an empty change list delegates the whole block to
`mh_chain_process_midi_io` (lines 342-348, which performs no `mh_set_param`
call), otherwise the chunked loop runs; on a failed chunk the function
returns 0 with `*num_midi_out` still 0. -/
def mh_chain_process_auto (c : MH_Chain) (oracle : ChainOracle) (nframes : Int)
    (midi_in : List MH_MidiEvent) (capacity : Nat)
    (pcs : List MH_ChainParamChange) : ChainAutoResult :=
  if nframes ≤ 0 ∨ c.max_block_size < nframes then ⟨false, [], [], []⟩
  else if pcs.isEmpty then
    let r := mh_chain_process_midi_io c oracle nframes midi_in capacity
    ⟨r.ret, r.calls, r.midiOut, []⟩
  else
    let r := chainAutoLoop c oracle nframes.toNat capacity 0 pcs midi_in 0
    if r.2.2.2 then ⟨true, r.1, r.2.1, r.2.2.1⟩
    else ⟨false, r.1, [], r.2.2.1⟩

/-! ### Intermediate-buffer dataflow of `mh_chain_process_midi_io` -/

/-- A planar audio buffer: channel index, then frame index, to sample. -/
def Buf : Type := Nat → Nat → Rat

/-- The effect on an intermediate buffer of the upstream stage processing
into it (minihost_chain.cpp:187-192, 220): the stage's backend overwrites
its `outCh` channels over the first `nframes` frames; all other storage
keeps whatever a previous call left there. -/
def writeStageOutput (b : Buf) (outCh : Nat) (produced : Buf) (nframes : Nat) : Buf :=
  fun ch fr => if ch < outCh ∧ fr < nframes then produced ch fr else b ch fr

/-- The channel-mismatch zeroing before a downstream stage
(minihost_chain.cpp:206-218 and 229-244): when the downstream stage needs
`currIn > prevOut` input channels, channels `prevOut..currIn-1` are
`memset` to zero over the first `nframes` frames. -/
def zeroPadExtra (b : Buf) (prevOut currIn nframes : Nat) : Buf :=
  fun ch fr =>
    if prevOut < currIn ∧ prevOut ≤ ch ∧ ch < currIn ∧ fr < nframes then 0
    else b ch fr

/-- The intermediate buffer contents a downstream stage reads: the upstream
stage wrote its output, then the extra channels were zero-padded. -/
def stageInput (prev curr : MH_Plugin) (b : Buf) (produced : Buf) (nframes : Nat) : Buf :=
  zeroPadExtra (writeStageOutput b prev.outCh produced nframes) prev.outCh curr.inCh nframes

/-- The buffer contents each stage after the first reads during one
`mh_chain_process_midi_io` call: entry `i` of the result is what stage
`i+1` reads from intermediate buffer `i`, whose pre-call contents `bufs[i]`
are arbitrary (whatever the previous call left).  `produced i` is the audio
stage `i` writes. -/
def chainSnapshots (nframes : Nat) :
    List MH_Plugin → List Buf → List Buf → List Buf
  | p0 :: p1 :: ps, b :: bs, o :: os =>
      stageInput p0 p1 b o nframes :: chainSnapshots nframes (p1 :: ps) bs os
  | _, _, _ => []

/-! ### MIDI ring buffer (midi_ringbuffer.cpp) -/

/-- The SPSC ring buffer state, mirroring `MH_MidiRingBuffer`
(midi_ringbuffer.cpp:10-16).  The storage array is modelled as a total
function from slot index to event. -/
structure MH_MidiRingBuffer where
  buffer : Nat → MH_MidiEvent
  capacity : Nat
  mask : Nat
  write_pos : Nat
  read_pos : Nat

/-- Model of `mh_midi_ringbuffer_push` (midi_ringbuffer.cpp:63-82) for a
non-null buffer and event: fails (dropping the event, changing nothing)
when advancing the write cursor would make it equal the read cursor;
otherwise stores the event at the write cursor and publishes the advanced
cursor. -/
def mh_midi_ringbuffer_push (rb : MH_MidiRingBuffer) (ev : MH_MidiEvent) :
    Bool × MH_MidiRingBuffer :=
  let write := rb.write_pos
  let next_write := (write + 1) &&& rb.mask
  if next_write = rb.read_pos then (false, rb)
  else
    (true,
     { rb with
        buffer := fun i => if i = write then ev else rb.buffer i
        write_pos := next_write })

/-- Model of `mh_midi_ringbuffer_pop` (midi_ringbuffer.cpp:84-101): fails
when the cursors are equal, otherwise returns the event at the read cursor
and publishes the advanced cursor. -/
def mh_midi_ringbuffer_pop (rb : MH_MidiRingBuffer) :
    Option MH_MidiEvent × MH_MidiRingBuffer :=
  if rb.read_pos = rb.write_pos then (none, rb)
  else
    (some (rb.buffer rb.read_pos),
     { rb with read_pos := (rb.read_pos + 1) &&& rb.mask })

/-- The drain loop of `mh_midi_ringbuffer_pop_all`
(midi_ringbuffer.cpp:110-114): reads while the cursors differ and fewer
than `max_events` events were taken; returns the events and the final read
cursor.  The fuel is the remaining `max_events - count` budget. -/
def popAllLoop (buffer : Nat → MH_MidiEvent) (mask write : Nat) :
    Nat → Nat → List MH_MidiEvent × Nat
  | read, 0 => ([], read)
  | read, fuel + 1 =>
      if read = write then ([], read)
      else
        let next := popAllLoop buffer mask write ((read + 1) &&& mask) fuel
        (buffer read :: next.1, next.2)

/-- Model of `mh_midi_ringbuffer_pop_all` (midi_ringbuffer.cpp:103-122):
non-positive `max_events` drains nothing; otherwise the loop runs and the
new read cursor is published once, only when at least one event was
taken. -/
def mh_midi_ringbuffer_pop_all (rb : MH_MidiRingBuffer) (max_events : Int) :
    List MH_MidiEvent × MH_MidiRingBuffer :=
  if max_events ≤ 0 then ([], rb)
  else
    let r := popAllLoop rb.buffer rb.mask rb.write_pos rb.read_pos max_events.toNat
    (r.1, if 0 < r.1.length then { rb with read_pos := r.2 } else rb)

/-- Well-formedness established by `mh_midi_ringbuffer_create`
(midi_ringbuffer.cpp:32-55): the capacity is a power of two, `mask` is
`capacity - 1`, and both cursors stay inside the array. -/
structure RBWF (rb : MH_MidiRingBuffer) : Prop where
  pow : ∃ k, rb.capacity = 2 ^ k
  mask_eq : rb.mask = rb.capacity - 1
  w_lt : rb.write_pos < rb.capacity
  r_lt : rb.read_pos < rb.capacity

/-- Number of unread events queued: the distance from the read cursor to
the write cursor, modulo the capacity (what `mh_midi_ringbuffer_count`
computes with `(write - read) & mask`). -/
def rbUnread (rb : MH_MidiRingBuffer) : Nat :=
  (rb.capacity + rb.write_pos - rb.read_pos) % rb.capacity

/-- The queued events in FIFO order: the abstraction the push/pop proofs
relate the cursor arithmetic to. -/
def rbList (rb : MH_MidiRingBuffer) : List MH_MidiEvent :=
  (List.range (rbUnread rb)).map
    (fun i => rb.buffer ((rb.read_pos + i) % rb.capacity))

/-! ### Concrete instances used to witness the theorems -/

/-- A concrete MIDI event (note-on). -/
def demoEvent : MH_MidiEvent := ⟨0, 144, 60, 100⟩

/-- A concrete well-formed ring-buffer state: capacity 8, two queued
events. -/
def demoRB : MH_MidiRingBuffer :=
  { buffer := fun i => ⟨(i : Int), 144, 60, 100⟩
  , capacity := 8, mask := 7, write_pos := 3, read_pos := 1 }

/-- A concrete opened plugin. -/
def demoPlugin : MH_Plugin :=
  { maxBlockSize := 512, numParams := 4, inCh := 2, outCh := 2
  , latencySamples := 0, tailSeconds := 0, sampleRate := 44100 }

/-- A concrete three-stage chain with per-stage latencies 10, 0, 5 and
per-stage tails 0.0, 2.5, 1.0. -/
def demoChain3 : MH_Chain :=
  { plugins :=
      [ { demoPlugin with latencySamples := 10, tailSeconds := 0 }
      , { demoPlugin with latencySamples := 0, tailSeconds := 5/2 }
      , { demoPlugin with latencySamples := 5, tailSeconds := 1 } ]
  , max_block_size := 8192, sample_rate := 44100
  , num_input_channels := 2, num_output_channels := 2
  , stage_channels := [2, 2, 2], inter_channels := [2, 2] }

/-- A concrete single-plugin chain. -/
def demoChain1 : MH_Chain :=
  { plugins := [demoPlugin]
  , max_block_size := 8192, sample_rate := 44100
  , num_input_channels := 2, num_output_channels := 2
  , stage_channels := [2], inter_channels := [] }

/-! ## Helper lemmas -/

theorem takeWhile_eq_filter_of_pairwise {α : Type} {R : α → α → Prop} {p : α → Bool}
    (hmono : ∀ a b, R a b → p b = true → p a = true) :
    ∀ {l : List α}, l.Pairwise R → l.takeWhile p = l.filter p := by
  intro l hl
  induction l with
  | nil => rfl
  | cons a t ih =>
    rcases List.pairwise_cons.mp hl with ⟨ha, ht⟩
    by_cases hp : p a
    · simp [List.takeWhile_cons, List.filter_cons, hp, ih ht]
    · have hnil : t.filter p = [] := by
        refine List.filter_eq_nil_iff.mpr ?_
        intro b hb hpb
        exact hp (hmono a b (ha b hb) hpb)
      simp [List.takeWhile_cons, List.filter_cons, hp, hnil]

theorem dropWhile_eq_filter_not_of_pairwise {α : Type} {R : α → α → Prop} {p : α → Bool}
    (hmono : ∀ a b, R a b → p b = true → p a = true) :
    ∀ {l : List α}, l.Pairwise R → l.dropWhile p = l.filter (fun a => ! p a) := by
  intro l hl
  induction l with
  | nil => rfl
  | cons a t ih =>
    rcases List.pairwise_cons.mp hl with ⟨ha, ht⟩
    by_cases hp : p a
    · simp [List.dropWhile_cons, List.filter_cons, hp, ih ht]
    · have hself : t.filter (fun a => ! p a) = t := by
        refine List.filter_eq_self.mpr ?_
        intro b hb
        by_cases hpb : p b = true
        · exact absurd (hmono a b (ha b hb) hpb) hp
        · simp [hpb]
      simp [List.dropWhile_cons, List.filter_cons, hp, hself]

theorem jlimitQ_zero_one_range (v : Rat) :
    0 ≤ jlimitQ 0 1 v ∧ jlimitQ 0 1 v ≤ 1 := by
  unfold jlimitQ
  split
  · norm_num
  · split
    · norm_num
    · constructor <;> linarith [not_lt.mp (by assumption : ¬ v < (0 : Rat)),
        not_lt.mp (by assumption : ¬ (1 : Rat) < v)]

theorem chunkBound_gt (nframes pos : Nat) (next : Option Int) (h : pos < nframes) :
    pos < chunkBound nframes pos next := by
  cases next with
  | none => simpa [chunkBound] using h
  | some off =>
    simp only [chunkBound]
    split
    · omega
    · exact h

theorem chunkBound_le (nframes pos : Nat) (next : Option Int) :
    chunkBound nframes pos next ≤ nframes := by
  cases next with
  | none => simp [chunkBound]
  | some off =>
    simp only [chunkBound]
    split
    · omega
    · exact le_refl nframes

theorem foldl_add_latency (l : List MH_Plugin) (acc : Int) :
    l.foldl (fun a p => a + p.latencySamples) acc =
      acc + (l.map (fun p => p.latencySamples)).sum := by
  induction l generalizing acc with
  | nil => simp
  | cons p t ih => simp [List.foldl_cons, ih, add_assoc]

theorem tailFold_ge (l : List MH_Plugin) (m : Rat) :
    m ≤ l.foldl (fun m p => if m < p.tailSeconds then p.tailSeconds else m) m ∧
    ∀ p ∈ l, p.tailSeconds ≤
      l.foldl (fun m p => if m < p.tailSeconds then p.tailSeconds else m) m := by
  induction l generalizing m with
  | nil => simp
  | cons q t ih =>
    have step : m ≤ if m < q.tailSeconds then q.tailSeconds else m := by
      split <;> linarith [le_refl m]
    have stept : q.tailSeconds ≤ if m < q.tailSeconds then q.tailSeconds else m := by
      split
      · exact le_refl _
      · linarith [not_lt.mp (by assumption : ¬ m < q.tailSeconds)]
    refine ⟨le_trans step (ih _).1, ?_⟩
    intro p hp
    rcases List.mem_cons.mp hp with hpq | hpt
    · subst hpq
      exact le_trans stept (ih _).1
    · exact (ih _).2 p hpt

theorem tailFold_mem (l : List MH_Plugin) (m : Rat) :
    l.foldl (fun m p => if m < p.tailSeconds then p.tailSeconds else m) m ∈
      l.map (fun p => p.tailSeconds) ∨
    l.foldl (fun m p => if m < p.tailSeconds then p.tailSeconds else m) m = m := by
  induction l generalizing m with
  | nil => simp
  | cons q t ih =>
    rcases ih (if m < q.tailSeconds then q.tailSeconds else m) with hmem | heq
    · exact Or.inl (by simp [List.foldl_cons]; right; simpa using hmem)
    · simp only [List.foldl_cons] at heq ⊢
      rw [heq]
      split
      · exact Or.inl (by simp)
      · exact Or.inr rfl

/-! ## C8: chain latency is the sum, chain tail is the maximum -/

/-- C8. For every chain, `mh_chain_get_latency_samples` is the sum of the
per-stage latencies and, for non-negative tails, `mh_chain_get_tail_seconds`
is the maximum of the per-stage tails (it bounds every stage's tail and is
attained by some stage whenever the chain is non-empty); in particular the
three-stage chain with latencies {10, 0, 5} and tails {0.0, 2.5, 1.0} has
total latency 15 and total tail 2.5. -/
theorem chain_latency_sum_tail_max (c : MH_Chain)
    (hnn : ∀ p ∈ c.plugins, 0 ≤ p.tailSeconds) :
    mh_chain_get_latency_samples c = (c.plugins.map (fun p => p.latencySamples)).sum ∧
    (∀ p ∈ c.plugins, p.tailSeconds ≤ mh_chain_get_tail_seconds c) ∧
    (c.plugins ≠ [] →
      mh_chain_get_tail_seconds c ∈ c.plugins.map (fun p => p.tailSeconds)) ∧
    mh_chain_get_latency_samples demoChain3 = 15 ∧
    mh_chain_get_tail_seconds demoChain3 = 5/2 := by
  refine ⟨?_, ?_, ?_,
    by norm_num [mh_chain_get_latency_samples, demoChain3, demoPlugin],
    by norm_num [mh_chain_get_tail_seconds, demoChain3, demoPlugin]⟩
  · unfold mh_chain_get_latency_samples
    simpa using foldl_add_latency c.plugins 0
  · intro p hp
    exact (tailFold_ge c.plugins 0).2 p hp
  · intro hne
    unfold mh_chain_get_tail_seconds
    rcases tailFold_mem c.plugins 0 with hmem | heq
    · exact hmem
    · rw [heq]
      cases hpl : c.plugins with
      | nil => exact absurd hpl hne
      | cons q t =>
        have hq := (tailFold_ge c.plugins 0).2 q (by rw [hpl]; exact List.mem_cons_self q t)
        rw [heq] at hq
        have hq0 : q.tailSeconds = 0 :=
          le_antisymm hq (hnn q (by rw [hpl]; exact List.mem_cons_self q t))
        simp only [List.map_cons, List.mem_cons]
        exact Or.inl hq0.symm

/-- Witness for C8: the three-stage chain with latencies {10, 0, 5} and
tails {0.0, 2.5, 1.0} has non-negative tails, total latency 15 and total
tail 2.5. -/
theorem chain_latency_sum_tail_max_witness :
    (∀ p ∈ demoChain3.plugins, 0 ≤ p.tailSeconds) ∧
    mh_chain_get_latency_samples demoChain3 = 15 ∧
    mh_chain_get_tail_seconds demoChain3 = 5/2 := by
  have hnn : ∀ p ∈ demoChain3.plugins, 0 ≤ p.tailSeconds := by
    norm_num [demoChain3, demoPlugin]
  exact ⟨hnn, (chain_latency_sum_tail_max demoChain3 hnn).2.2.2⟩

/-! ## C10: out-of-range MIDI offsets are clamped, not dropped -/

/-- C10. For `1 ≤ nframes ≤ maxBlockSize`, `mh_process_midi_io` succeeds
and delivers every incoming event (none is rejected or dropped), with each
`sample_offset` clamped into `[0, nframes-1]`: negative offsets become 0
and offsets `≥ nframes` become `nframes - 1`. -/
theorem process_midi_io_clamps_offsets (p : MH_Plugin) (oracle : MidiOracle)
    (nframes : Int) (midi_in : List MH_MidiEvent) (cap : Nat)
    (h1 : 1 ≤ nframes) (h2 : nframes ≤ p.maxBlockSize) :
    (mh_process_midi_io p oracle nframes midi_in cap).ret = true ∧
    (mh_process_midi_io p oracle nframes midi_in cap).calls =
      [⟨0, nframes.toNat, midi_in.map (clampEventOffset nframes)⟩] ∧
    (∀ ev, (clampEventOffset nframes ev).sample_offset =
      max 0 (min (nframes - 1) ev.sample_offset)) ∧
    (∀ ev, ev.sample_offset < 0 → (clampEventOffset nframes ev).sample_offset = 0) ∧
    (∀ ev, nframes ≤ ev.sample_offset →
      (clampEventOffset nframes ev).sample_offset = nframes - 1) ∧
    (∀ ev, 0 ≤ (clampEventOffset nframes ev).sample_offset ∧
      (clampEventOffset nframes ev).sample_offset ≤ nframes - 1) := by
  have hguard : ¬ (nframes < 0 ∨ p.maxBlockSize < nframes) := by omega
  refine ⟨?_, ?_, ?_, ?_, ?_, ?_⟩
  · simp [mh_process_midi_io, hguard]
  · simp [mh_process_midi_io, hguard]
  · intro ev
    simp only [clampEventOffset, jlimitI]
    split
    · omega
    · split <;> omega
  · intro ev hev
    simp only [clampEventOffset, jlimitI]
    split
    · rfl
    · omega
  · intro ev hev
    simp only [clampEventOffset, jlimitI]
    split
    · omega
    · split
      · rfl
      · omega
  · intro ev
    simp only [clampEventOffset, jlimitI]
    split
    · omega
    · split <;> omega

/-- Witness for C10 at `nframes = 4`: an event at offset `-3` is delivered
at offset 0 and an event at offset 9 is delivered at offset 3. -/
theorem process_midi_io_clamps_offsets_witness :
    (1 ≤ (4 : Int) ∧ (4 : Int) ≤ demoPlugin.maxBlockSize) ∧
    (mh_process_midi_io demoPlugin (fun _ => []) 4
        [⟨-3, 144, 60, 100⟩, ⟨9, 128, 60, 0⟩] 8).ret = true ∧
    (mh_process_midi_io demoPlugin (fun _ => []) 4
        [⟨-3, 144, 60, 100⟩, ⟨9, 128, 60, 0⟩] 8).calls =
      [⟨0, 4, [⟨0, 144, 60, 100⟩, ⟨3, 128, 60, 0⟩]⟩] := by
  refine ⟨⟨by decide, by decide⟩, ?_, ?_⟩
  · exact (process_midi_io_clamps_offsets demoPlugin (fun _ => []) 4
      [⟨-3, 144, 60, 100⟩, ⟨9, 128, 60, 0⟩] 8 (by decide) (by decide)).1
  · have h := (process_midi_io_clamps_offsets demoPlugin (fun _ => []) 4
      [⟨-3, 144, 60, 100⟩, ⟨9, 128, 60, 0⟩] 8 (by decide) (by decide)).2.1
    rw [h]
    decide

/-! ## C3: empty automation list is the non-chunked fast path -/

/-- C3. With an empty parameter-change list, `mh_process_auto` produces
exactly the result of the single non-chunked `mh_process_midi_io` call on
the whole block (same return value, same backend-call trace — hence the
same output samples — and same MIDI output), and for `0 ≤ nframes ≤ max`
that delegated call is one backend call over the entire block; the same
delegation holds for `mh_chain_process_auto` and
`mh_chain_process_midi_io`. -/
theorem auto_fast_path_equivalence :
    (∀ (p : MH_Plugin) (oracle : MidiOracle) (nframes : Int)
        (midi : List MH_MidiEvent) (cap : Nat),
      nframes ≤ p.maxBlockSize →
      (mh_process_auto p oracle nframes midi cap []).ret =
        (mh_process_midi_io p oracle nframes midi cap).ret ∧
      (mh_process_auto p oracle nframes midi cap []).chunks.map (fun ch => ch.call) =
        (mh_process_midi_io p oracle nframes midi cap).calls ∧
      (mh_process_auto p oracle nframes midi cap []).midiOut =
        (mh_process_midi_io p oracle nframes midi cap).midiOut ∧
      (0 ≤ nframes →
        (mh_process_midi_io p oracle nframes midi cap).calls =
          [⟨0, nframes.toNat, midi.map (clampEventOffset nframes)⟩])) ∧
    (∀ (c : MH_Chain) (oracle : ChainOracle) (nframes : Int)
        (midi : List MH_MidiEvent) (cap : Nat),
      nframes ≤ c.max_block_size →
      (mh_chain_process_auto c oracle nframes midi cap []).ret =
        (mh_chain_process_midi_io c oracle nframes midi cap).ret ∧
      (mh_chain_process_auto c oracle nframes midi cap []).calls =
        (mh_chain_process_midi_io c oracle nframes midi cap).calls ∧
      (mh_chain_process_auto c oracle nframes midi cap []).midiOut =
        (mh_chain_process_midi_io c oracle nframes midi cap).midiOut) := by
  constructor
  · intro p oracle nframes midi cap hmax
    by_cases hg : nframes < 0 ∨ p.maxBlockSize < nframes
    · refine ⟨?_, ?_, ?_, ?_⟩ <;>
        simp [mh_process_auto, mh_process_midi_io, hg]
      omega
    · refine ⟨?_, ?_, ?_, ?_⟩ <;>
        simp [mh_process_auto, mh_process_midi_io, hg, List.map_map, Function.comp]
  · intro c oracle nframes midi cap hmax
    by_cases hg : nframes ≤ 0 ∨ c.max_block_size < nframes
    · refine ⟨?_, ?_, ?_⟩ <;>
        simp [mh_chain_process_auto, mh_chain_process_midi_io, hg]
    · refine ⟨?_, ?_, ?_⟩ <;>
        simp [mh_chain_process_auto, hg]

/-- Witness for C3 at a concrete block: `nframes = 4` on the demo plugin
and the demo single-plugin chain. -/
theorem auto_fast_path_equivalence_witness :
    ((4 : Int) ≤ demoPlugin.maxBlockSize ∧ (4 : Int) ≤ demoChain1.max_block_size) ∧
    (mh_process_auto demoPlugin (fun _ => [demoEvent]) 4 [demoEvent] 2 []).midiOut =
      (mh_process_midi_io demoPlugin (fun _ => [demoEvent]) 4 [demoEvent] 2).midiOut ∧
    (mh_chain_process_auto demoChain1 (fun _ _ => []) 4 [demoEvent] 2 []).ret =
      (mh_chain_process_midi_io demoChain1 (fun _ _ => []) 4 [demoEvent] 2).ret := by
  refine ⟨⟨by decide, by decide⟩, ?_, ?_⟩
  · exact (auto_fast_path_equivalence.1 demoPlugin (fun _ => [demoEvent]) 4
      [demoEvent] 2 (by decide)).2.2.1
  · exact (auto_fast_path_equivalence.2 demoChain1 (fun _ _ => []) 4
      [demoEvent] 2 (by decide)).1

/-! ## C6: chain construction failure conditions -/

theorem firstNullIdx_eq_none_iff (ps : List (Option MH_Plugin)) :
    firstNullIdx ps = none ↔ ∀ o ∈ ps, o ≠ none := by
  induction ps with
  | nil => simp [firstNullIdx]
  | cons a t ih =>
    cases a with
    | none => simp [firstNullIdx]
    | some p => simp [firstNullIdx, ih]

theorem firstNullIdx_some (ps : List (Option MH_Plugin)) (i : Nat) :
    firstNullIdx ps = some i → ps[i]? = some none := by
  induction ps generalizing i with
  | nil => simp [firstNullIdx]
  | cons a t ih =>
    cases a with
    | none =>
      intro h
      simp only [firstNullIdx, Option.some.injEq] at h
      subst h
      simp
    | some p =>
      intro h
      simp only [firstNullIdx, Option.map_eq_some'] at h
      rcases h with ⟨j, hj, rfl⟩
      simpa using ih j hj

theorem unwrapPlugins_eq (ps : List (Option MH_Plugin)) (h : ∀ o ∈ ps, o ≠ none) :
    ps = (unwrapPlugins ps).map some := by
  induction ps with
  | nil => rfl
  | cons a t ih =>
    cases a with
    | none => exact absurd rfl (h none (List.mem_cons_self none t))
    | some p =>
      simp only [unwrapPlugins, List.map_cons, List.cons.injEq, true_and]
      exact ih (fun o ho => h o (List.mem_cons_of_mem _ ho))

theorem firstRateMismatch_eq_none_iff (r0 : Rat) (l : List MH_Plugin) :
    firstRateMismatch r0 l = none ↔ ∀ p ∈ l, |p.sampleRate - r0| ≤ 1/10 := by
  induction l with
  | nil => simp [firstRateMismatch]
  | cons p t ih =>
    by_cases hp : 1/10 < |p.sampleRate - r0|
    · simp only [firstRateMismatch, if_pos hp]
      constructor
      · intro h
        simp at h
      · intro h
        exact absurd (h p (List.mem_cons_self p t)) (not_le.mpr hp)
    · simp only [firstRateMismatch, if_neg hp, Option.map_eq_none', ih]
      constructor
      · intro h q hq
        rcases List.mem_cons.mp hq with hqp | hqt
        · subst hqp
          exact not_lt.mp hp
        · exact h q hqt
      · intro h q hq
        exact h q (List.mem_cons_of_mem _ hq)

theorem firstRateMismatch_some (r0 : Rat) (l : List MH_Plugin) (j : Nat) :
    firstRateMismatch r0 l = some j →
      ∃ p, l[j]? = some p ∧ 1/10 < |p.sampleRate - r0| := by
  induction l generalizing j with
  | nil => simp [firstRateMismatch]
  | cons p t ih =>
    by_cases hp : 1/10 < |p.sampleRate - r0|
    · intro h
      simp only [firstRateMismatch, if_pos hp, Option.some.injEq] at h
      subst h
      exact ⟨p, by simp, hp⟩
    · intro h
      simp only [firstRateMismatch, if_neg hp, Option.map_eq_some'] at h
      rcases h with ⟨j0, hj0, rfl⟩
      rcases ih j0 hj0 with ⟨q, hq1, hq2⟩
      exact ⟨q, by simpa using hq1, hq2⟩

/-- C6. `mh_chain_create` yields a chain exactly when the backend list is
non-empty, has no null entry, and every backend's sample rate is within 0.1
of the first backend's; a null-entry error names the offending index; a
rate-mismatch error names a stage whose rate differs from stage 0's by more
than 0.1; and on success the chain holds all the plugins, with the
intermediate buffer between adjacent stages `i` and `i+1` allocated with
`max(out_ch(i), in_ch(i+1))` channels. -/
theorem mh_chain_create_spec (ps : List (Option MH_Plugin)) :
    ((∃ c, mh_chain_create ps = .ok c) ↔
      (ps ≠ [] ∧ (∀ o ∈ ps, o ≠ none) ∧
        ∀ p0 p, (unwrapPlugins ps).head? = some p0 → p ∈ unwrapPlugins ps →
          |p.sampleRate - p0.sampleRate| ≤ 1/10)) ∧
    (∀ i, mh_chain_create ps = .error (.nullPluginAt i) → ps[i]? = some none) ∧
    (∀ i, mh_chain_create ps = .error (.sampleRateMismatch i) →
      ∃ p0 p, (unwrapPlugins ps)[0]? = some p0 ∧ (unwrapPlugins ps)[i]? = some p ∧
        1/10 < |p.sampleRate - p0.sampleRate|) ∧
    (∀ c, mh_chain_create ps = .ok c →
      c.plugins = unwrapPlugins ps ∧
      c.inter_channels =
        List.zipWith (fun a b => max a.outCh b.inCh) c.plugins (c.plugins.drop 1)) := by
  by_cases hE : ps = []
  · subst hE
    refine ⟨?_, ?_, ?_, ?_⟩ <;> simp [mh_chain_create]
  · have hE' : ps.isEmpty = false := by
      cases ps with
      | nil => exact absurd rfl hE
      | cons a t => rfl
    cases hN : firstNullIdx ps with
    | some i =>
      have hcreate : mh_chain_create ps = .error (.nullPluginAt i) := by
        simp [mh_chain_create, hE', hN]
      refine ⟨?_, ?_, ?_, ?_⟩
      · rw [hcreate]
        constructor
        · rintro ⟨c, hc⟩
          exact absurd hc (by simp)
        · rintro ⟨-, hall, -⟩
          have := (firstNullIdx_eq_none_iff ps).mpr hall
          rw [hN] at this
          exact absurd this (by simp)
      · intro i0 h
        rw [hcreate] at h
        have hi : i = i0 := by
          injection h with h2
          injection h2
        subst hi
        exact firstNullIdx_some ps i hN
      · intro i0 h
        rw [hcreate] at h
        exact absurd h (by simp)
      · intro c h
        rw [hcreate] at h
        exact absurd h (by simp)
    | none =>
      have hall := (firstNullIdx_eq_none_iff ps).mp hN
      have hmap := unwrapPlugins_eq ps hall
      cases hU : unwrapPlugins ps with
      | nil =>
        rw [hU] at hmap
        simp at hmap
        exact absurd hmap hE
      | cons p0 tail =>
        cases hR : firstRateMismatch p0.sampleRate tail with
        | some j =>
          have hcreate : mh_chain_create ps = .error (.sampleRateMismatch (j + 1)) := by
            simp [mh_chain_create, hE', hN, hU, hR]
          rcases firstRateMismatch_some p0.sampleRate tail j hR with ⟨q, hq1, hq2⟩
          refine ⟨?_, ?_, ?_, ?_⟩
          · rw [hcreate]
            constructor
            · rintro ⟨c, hc⟩
              exact absurd hc (by simp)
            · rintro ⟨-, -, hrate⟩
              have hqmem : q ∈ p0 :: tail :=
                List.mem_cons_of_mem _ (List.getElem?_mem hq1)
              have := hrate p0 q rfl hqmem
              exact absurd this (not_le.mpr hq2)
          · intro i0 h
            rw [hcreate] at h
            exact absurd h (by simp)
          · intro i0 h
            rw [hcreate] at h
            have hi : j + 1 = i0 := by
              injection h with h2
              injection h2
            subst hi
            exact ⟨p0, q, by simp, by simpa using hq1, hq2⟩
          · intro c h
            rw [hcreate] at h
            exact absurd h (by simp)
        | none =>
          have hcreate : mh_chain_create ps = .ok
              { plugins := p0 :: tail
              , max_block_size := 8192
              , sample_rate := p0.sampleRate
              , num_input_channels := p0.inCh
              , num_output_channels := ((p0 :: tail).getLastD p0).outCh
              , stage_channels := (p0 :: tail).map (fun p => p.outCh)
              , inter_channels :=
                  List.zipWith (fun a b => max a.outCh b.inCh) (p0 :: tail) tail } := by
            simp [mh_chain_create, hE', hN, hU, hR]
          refine ⟨?_, ?_, ?_, ?_⟩
          · rw [hcreate]
            refine iff_of_true ⟨_, rfl⟩ ⟨hE, hall, ?_⟩
            intro q0 q hq0 hq
            simp only [List.head?_cons, Option.some.injEq] at hq0
            subst hq0
            rcases List.mem_cons.mp hq with hq | hq
            · subst hq
              norm_num
            · exact (firstRateMismatch_eq_none_iff p0.sampleRate tail).mp hR q hq
          · intro i0 h
            rw [hcreate] at h
            exact absurd h (by simp)
          · intro i0 h
            rw [hcreate] at h
            exact absurd h (by simp)
          · intro c h
            rw [hcreate] at h
            injection h with h2
            subst h2
            exact ⟨rfl, rfl⟩

/-- Witness for C6: a two-stage list with a 0.2 Hz rate mismatch is
rejected with the offending index 1, and a well-matched two-stage list
yields a chain whose single intermediate buffer has
`max(out_ch(0), in_ch(1)) = 4` channels. -/
theorem mh_chain_create_spec_witness :
    (mh_chain_create [some demoPlugin, some { demoPlugin with sampleRate := 44100 + 1/5 }]
        = .error (.sampleRateMismatch 1) →
      ∃ p0 p,
        (unwrapPlugins [some demoPlugin,
            some { demoPlugin with sampleRate := 44100 + 1/5 }])[0]? = some p0 ∧
        (unwrapPlugins [some demoPlugin,
            some { demoPlugin with sampleRate := 44100 + 1/5 }])[1]? = some p ∧
        1/10 < |p.sampleRate - p0.sampleRate|) ∧
    (∀ c, mh_chain_create [some demoPlugin, some { demoPlugin with inCh := 4 }] = .ok c →
      c.plugins = unwrapPlugins [some demoPlugin, some { demoPlugin with inCh := 4 }] ∧
      c.inter_channels =
        List.zipWith (fun a b => max a.outCh b.inCh) c.plugins (c.plugins.drop 1)) := by
  constructor
  · exact (mh_chain_create_spec
      [some demoPlugin, some { demoPlugin with sampleRate := 44100 + 1/5 }]).2.2.1 1
  · exact (mh_chain_create_spec
      [some demoPlugin, some { demoPlugin with inCh := 4 }]).2.2.2

/-! ## C7: stale intermediate-buffer channels are zeroed -/

/-- C7. In every `mh_chain_process_midi_io` call, for each stage after the
first whose input channel count exceeds the upstream stage's output channel
count, the extra channels of the shared intermediate buffer (channels
`upstream_out .. downstream_in - 1`) read as zero over the first `nframes`
frames when the downstream stage is invoked — for arbitrary pre-call buffer
contents, i.e. regardless of prior call history. -/
theorem chain_zero_pads_extra_channels :
    ∀ (nframes i : Nat) (stages : List MH_Plugin) (bufs produced : List Buf)
      (s : Buf) (prev curr : MH_Plugin),
      (chainSnapshots nframes stages bufs produced)[i]? = some s →
      stages[i]? = some prev → stages[i + 1]? = some curr →
      prev.outCh < curr.inCh →
      ∀ ch fr, prev.outCh ≤ ch → ch < curr.inCh → fr < nframes →
        s ch fr = 0 := by
  intro nframes i
  induction i with
  | zero =>
    intro stages bufs produced s prev curr hs hprev hcurr hlt ch fr hch1 hch2 hfr
    cases stages with
    | nil => simp at hprev
    | cons p0 rest =>
      cases rest with
      | nil => simp at hcurr
      | cons p1 ps =>
        cases bufs with
        | nil => simp [chainSnapshots] at hs
        | cons b bs =>
          cases produced with
          | nil => simp [chainSnapshots] at hs
          | cons o os =>
            simp only [chainSnapshots, List.getElem?_cons_zero,
              Option.some.injEq] at hs
            simp only [List.getElem?_cons_zero, Option.some.injEq] at hprev
            simp only [List.getElem?_cons_succ, List.getElem?_cons_zero,
              Option.some.injEq] at hcurr
            subst hs
            subst hprev
            subst hcurr
            simp only [stageInput, zeroPadExtra]
            rw [if_pos ⟨hlt, hch1, hch2, hfr⟩]
  | succ n ih =>
    intro stages bufs produced s prev curr hs hprev hcurr hlt ch fr hch1 hch2 hfr
    cases stages with
    | nil => simp at hprev
    | cons p0 rest =>
      cases rest with
      | nil => simp at hcurr
      | cons p1 ps =>
        cases bufs with
        | nil => simp [chainSnapshots] at hs
        | cons b bs =>
          cases produced with
          | nil => simp [chainSnapshots] at hs
          | cons o os =>
            simp only [chainSnapshots, List.getElem?_cons_succ] at hs hprev
            have hcurr2 : (p1 :: ps)[n + 1]? = some curr := by
              simpa using hcurr
            exact ih (p1 :: ps) bs os s prev curr hs hprev hcurr2 hlt ch fr hch1 hch2 hfr

/-- Witness for C7: a 2-output stage feeding a 4-input stage, with the
intermediate buffer full of stale `7` samples — channels 2 and 3 read as
zero on the first 16 frames. -/
theorem chain_zero_pads_extra_channels_witness :
    ((chainSnapshots 16 [demoPlugin, { demoPlugin with inCh := 4 }]
        [fun _ _ => 7] [fun _ _ => 9])[0]? =
      some (stageInput demoPlugin { demoPlugin with inCh := 4 }
        (fun _ _ => 7) (fun _ _ => 9) 16)) ∧
    demoPlugin.outCh < ({ demoPlugin with inCh := 4 } : MH_Plugin).inCh ∧
    stageInput demoPlugin { demoPlugin with inCh := 4 }
      (fun _ _ => 7) (fun _ _ => 9) 16 2 5 = 0 ∧
    stageInput demoPlugin { demoPlugin with inCh := 4 }
      (fun _ _ => 7) (fun _ _ => 9) 16 3 15 = 0 := by
  refine ⟨rfl, by decide, ?_, ?_⟩
  · exact chain_zero_pads_extra_channels 16 0
      [demoPlugin, { demoPlugin with inCh := 4 }] [fun _ _ => 7] [fun _ _ => 9]
      (stageInput demoPlugin { demoPlugin with inCh := 4 }
        (fun _ _ => 7) (fun _ _ => 9) 16)
      demoPlugin { demoPlugin with inCh := 4 } rfl rfl rfl (by decide)
      2 5 (by decide) (by decide) (by decide)
  · exact chain_zero_pads_extra_channels 16 0
      [demoPlugin, { demoPlugin with inCh := 4 }] [fun _ _ => 7] [fun _ _ => 9]
      (stageInput demoPlugin { demoPlugin with inCh := 4 }
        (fun _ _ => 7) (fun _ _ => 9) 16)
      demoPlugin { demoPlugin with inCh := 4 } rfl rfl rfl (by decide)
      3 15 (by decide) (by decide) (by decide)

/-! ## C9: the chain automation loop contends a control-thread mutex -/

/-- C9 (refuting evidence). Processing one 8-frame block through
`mh_chain_process_auto` with a single parameter change makes the realtime
path invoke `mh_set_param` — the internally-serialized control-thread
accessor that locks `stateMutex` — while the call itself succeeds.  So a
realtime-path processing entry point does invoke a mutex-contending
control-thread accessor during block processing. -/
theorem chain_auto_invokes_serialized_accessor :
    (mh_chain_process_auto demoChain1 (fun _ _ => []) 8 [] 4
        [⟨0, 0, 0, 1/2⟩]).locks = [ControlAccess.setParam 0 0 (1/2)] ∧
    (mh_chain_process_auto demoChain1 (fun _ _ => []) 8 [] 4
        [⟨0, 0, 0, 1/2⟩]).ret = true := by
  have hloop : chainAutoLoop demoChain1 (fun _ _ => []) 8 4 0
      [⟨0, 0, 0, 1/2⟩] [] 0 =
      ([(0, ⟨0, 8, []⟩)], [], [ControlAccess.setParam 0 0 (1/2)], true) := by
    rw [chainAutoLoop]
    simp +decide [chunkBound, chainLocksOf, mh_chain_process_midi_io,
      mh_process_midi_io, demoChain1, demoPlugin, shiftCall]
    rw [chainAutoLoop]
    simp
  have h8 : (8 : Int).toNat = 8 := rfl
  have hguard : ¬ ((8 : Int) ≤ 0 ∨ demoChain1.max_block_size < 8) := by
    norm_num [demoChain1]
  simp only [mh_chain_process_auto, if_neg hguard, List.isEmpty_cons,
    Bool.false_eq_true, if_false, h8, hloop]
  exact ⟨rfl, rfl⟩

/-! ## C1 and C2: the chunked automation loop -/

theorem chunkBound_cases (nframes pos : Nat) (pcs : List MH_ParamChange) :
    (∃ pc, pcs.head? = some pc ∧ (pos : Int) < pc.sample_offset ∧
      pc.sample_offset < (nframes : Int) ∧
      chunkBound nframes pos (pcs.head?.map (fun pc => pc.sample_offset)) =
        pc.sample_offset.toNat) ∨
    chunkBound nframes pos (pcs.head?.map (fun pc => pc.sample_offset)) = nframes := by
  cases pcs with
  | nil => right; rfl
  | cons pc t =>
    by_cases hc : (pos : Int) < pc.sample_offset ∧ pc.sample_offset < (nframes : Int)
    · left
      exact ⟨pc, rfl, hc.1, hc.2, by simp [chunkBound, hc]⟩
    · right
      simp only [List.head?_cons, Option.map_some', chunkBound]
      rw [if_neg hc]

/-- C1. At every iteration of the chunked automation loop of
`mh_process_auto` on an ascending-sorted change list, the loop emits a
chunk whose boundary is `nframes` shrunk to the next pending change's
offset exactly when that offset is strictly between the cursor and
`nframes`, and whose pre-chunk parameter applications are exactly the
pending changes with `offset ≤ pos`, in input order, each value clamped to
`[0,1]` (so a change at offset 0 and all co-located changes land before the
chunk that starts at that offset); and for a non-empty change list
`mh_process_auto` runs exactly this loop over the whole block and
succeeds. -/
theorem auto_chunk_boundary_and_params :
    (∀ (numParams : Int) (oracle : MidiOracle) (nframes capacity pos : Nat)
        (pcs : List MH_ParamChange) (midis : List MH_MidiEvent) (outCount : Nat),
      pos < nframes →
      pcs.Pairwise (fun a b => a.sample_offset ≤ b.sample_offset) →
      ∃ chunk rest,
        (autoLoop numParams oracle nframes capacity pos pcs midis outCount).1 =
          chunk :: rest ∧
        chunk.pos = pos ∧
        chunk.chunk_end =
          chunkBound nframes pos (pcs.head?.map (fun pc => pc.sample_offset)) ∧
        ((∃ pc, pcs.head? = some pc ∧ (pos : Int) < pc.sample_offset ∧
            pc.sample_offset < (nframes : Int) ∧
            chunk.chunk_end = pc.sample_offset.toNat) ∨
          chunk.chunk_end = nframes) ∧
        pos < chunk.chunk_end ∧ chunk.chunk_end ≤ nframes ∧
        chunk.applied =
          appliesOf numParams
            (pcs.filter (fun pc => pc.sample_offset ≤ (pos : Int))) ∧
        (∀ pa ∈ chunk.applied, 0 ≤ pa.value ∧ pa.value ≤ 1)) ∧
    (∀ (p : MH_Plugin) (oracle : MidiOracle) (nframes : Int)
        (midi : List MH_MidiEvent) (cap : Nat) (pcs : List MH_ParamChange),
      pcs ≠ [] → ¬ (nframes < 0 ∨ p.maxBlockSize < nframes) →
      (mh_process_auto p oracle nframes midi cap pcs).chunks =
        (autoLoop p.numParams oracle nframes.toNat cap 0 pcs midi 0).1 ∧
      (mh_process_auto p oracle nframes midi cap pcs).ret = true) := by
  constructor
  · intro numParams oracle nframes capacity pos pcs midis outCount h hsorted
    have hce : pos <
        chunkBound nframes pos (pcs.head?.map (fun pc => pc.sample_offset)) :=
      chunkBound_gt _ _ _ h
    rw [autoLoop]
    simp only [dif_pos h, dif_neg (not_le.mpr hce)]
    refine ⟨_, _, rfl, rfl, rfl, chunkBound_cases nframes pos pcs, hce,
      chunkBound_le _ _ _, ?_, ?_⟩
    · have htf :
          pcs.takeWhile (fun pc => pc.sample_offset ≤ (pos : Int)) =
          pcs.filter (fun pc => pc.sample_offset ≤ (pos : Int)) := by
        refine takeWhile_eq_filter_of_pairwise ?_ hsorted
        intro a b hab hb
        simp only [decide_eq_true_eq] at hb ⊢
        omega
      rw [htf]
    · intro pa hpa
      unfold appliesOf at hpa
      rcases List.mem_map.mp hpa with ⟨pc, -, rfl⟩
      exact jlimitQ_zero_one_range pc.value
  · intro p oracle nframes midi cap pcs hne hg
    have hE : pcs.isEmpty = false := by
      cases pcs with
      | nil => exact absurd rfl hne
      | cons a t => rfl
    constructor <;>
      simp [mh_process_auto, hg, hE]

/-- Witness for C1: at `pos = 0` with changes at offsets {0, 0, 5} the loop
emits a first chunk applying both offset-0 changes (in input order, the 1.5
value clamped to 1) before any processing. -/
theorem auto_chunk_boundary_and_params_witness :
    ((0 : Nat) < 8 ∧
      List.Pairwise (fun a b : MH_ParamChange => a.sample_offset ≤ b.sample_offset)
        [⟨0, 0, 3/2⟩, ⟨0, 1, 1/2⟩, ⟨5, 2, 2⟩]) ∧
    (∃ chunk rest,
      (autoLoop 4 (fun _ => []) 8 4 0
          [⟨0, 0, 3/2⟩, ⟨0, 1, 1/2⟩, ⟨5, 2, 2⟩] [] 0).1 = chunk :: rest ∧
      chunk.pos = 0 ∧
      chunk.chunk_end =
        chunkBound 8 0
          (([⟨0, 0, 3/2⟩, ⟨0, 1, 1/2⟩, ⟨5, 2, 2⟩] :
              List MH_ParamChange).head?.map (fun pc => pc.sample_offset)) ∧
      ((∃ pc, ([⟨0, 0, 3/2⟩, ⟨0, 1, 1/2⟩, ⟨5, 2, 2⟩] :
            List MH_ParamChange).head? = some pc ∧ (0 : Int) < pc.sample_offset ∧
          pc.sample_offset < (8 : Int) ∧
          chunk.chunk_end = pc.sample_offset.toNat) ∨
        chunk.chunk_end = 8) ∧
      0 < chunk.chunk_end ∧ chunk.chunk_end ≤ 8 ∧
      chunk.applied =
        appliesOf 4
          (([⟨0, 0, 3/2⟩, ⟨0, 1, 1/2⟩, ⟨5, 2, 2⟩] :
              List MH_ParamChange).filter (fun pc => pc.sample_offset ≤ (0 : Int))) ∧
      (∀ pa ∈ chunk.applied, 0 ≤ pa.value ∧ pa.value ≤ 1)) := by
  refine ⟨⟨by decide, by decide⟩, ?_⟩
  exact auto_chunk_boundary_and_params.1 4 (fun _ => []) 8 4 0
    [⟨0, 0, 3/2⟩, ⟨0, 1, 1/2⟩, ⟨5, 2, 2⟩] [] 0 (by decide) (by decide)

theorem auto_midi_slice_aux :
    ∀ (fuel : Nat) (numParams : Int) (oracle : MidiOracle)
      (nframes capacity pos : Nat) (pcs : List MH_ParamChange)
      (midis : List MH_MidiEvent) (outCount : Nat),
      nframes - pos ≤ fuel →
      midis.Pairwise (fun a b => a.sample_offset ≤ b.sample_offset) →
      (∀ ch ∈ (autoLoop numParams oracle nframes capacity pos pcs midis outCount).1,
        pos ≤ ch.pos) ∧
      (∀ ch ∈ (autoLoop numParams oracle nframes capacity pos pcs midis outCount).1,
        ch.call.midi =
          (midis.filter (fun ev =>
              decide ((ch.pos : Int) ≤ ev.sample_offset) &&
              decide (ev.sample_offset < (ch.chunk_end : Int)))).map
            (rebaseEvent (-(ch.pos : Int)))) ∧
      (autoLoop numParams oracle nframes capacity pos pcs midis outCount).2 =
        (((autoLoop numParams oracle nframes capacity pos pcs midis outCount).1.map
            (fun ch => (oracle ch.pos).map (rebaseEvent (ch.pos : Int)))).flatten).take
          (capacity - outCount) := by
  intro fuel
  induction fuel with
  | zero =>
    intro numParams oracle nframes capacity pos pcs midis outCount hfuel hsorted
    have hnp : ¬ pos < nframes := by omega
    rw [autoLoop]
    simp [dif_neg hnp]
  | succ fuel ih =>
    intro numParams oracle nframes capacity pos pcs midis outCount hfuel hsorted
    by_cases h : pos < nframes
    · have hce : pos <
          chunkBound nframes pos (pcs.head?.map (fun pc => pc.sample_offset)) :=
        chunkBound_gt _ _ _ h
      have hcele := chunkBound_le nframes pos
        (pcs.head?.map (fun pc => pc.sample_offset))
      set ce := chunkBound nframes pos (pcs.head?.map (fun pc => pc.sample_offset))
        with hcedef
      have hsorted2 :
          (midis.dropWhile (fun ev => ev.sample_offset < (ce : Int))).Pairwise
            (fun a b => a.sample_offset ≤ b.sample_offset) :=
        List.Pairwise.sublist (List.dropWhile_sublist _) hsorted
      have hfuel2 : nframes - ce ≤ fuel := by omega
      have ihr := ih numParams oracle nframes capacity ce
        (pcs.dropWhile (fun pc => pc.sample_offset ≤ (pos : Int)))
        (midis.dropWhile (fun ev => ev.sample_offset < (ce : Int)))
        (outCount +
          (((oracle pos).map (rebaseEvent (pos : Int))).take
            (capacity - outCount)).length)
        hfuel2 hsorted2
      rw [autoLoop]
      simp only [dif_pos h, dif_neg (not_le.mpr hce), ← hcedef]
      have htw : midis.takeWhile (fun ev => ev.sample_offset < (ce : Int)) =
          midis.filter (fun ev => ev.sample_offset < (ce : Int)) := by
        refine takeWhile_eq_filter_of_pairwise ?_ hsorted
        intro a b hab hb
        simp only [decide_eq_true_eq] at hb ⊢
        omega
      refine ⟨?_, ?_, ?_⟩
      · intro ch hch
        rcases List.mem_cons.mp hch with hh | ht
        · subst hh
          exact le_refl pos
        · exact le_trans (le_of_lt hce) (ihr.1 ch ht)
      · intro ch hch
        rcases List.mem_cons.mp hch with hh | ht
        · subst hh
          simp only
          rw [htw, List.filter_filter]
        · have hchpos : ce ≤ ch.pos := ihr.1 ch ht
          rw [ihr.2.1 ch ht]
          refine congrArg _ ?_
          conv_rhs =>
            rw [← List.takeWhile_append_dropWhile
              (fun ev => ev.sample_offset < (ce : Int)) midis]
          rw [List.filter_append]
          have hnil : (midis.takeWhile (fun ev => ev.sample_offset < (ce : Int))).filter
              (fun ev =>
                decide ((ch.pos : Int) ≤ ev.sample_offset) &&
                decide (ev.sample_offset < (ch.chunk_end : Int))) = [] := by
            refine List.filter_eq_nil_iff.mpr ?_
            intro ev hev
            have := List.mem_takeWhile_imp hev
            simp only [decide_eq_true_eq] at this
            simp only [Bool.and_eq_true, decide_eq_true_eq, not_and]
            intro hc
            omega
          rw [hnil, List.nil_append]
      · simp only [List.map_cons, List.flatten_cons]
        rw [List.take_append_eq_append_take, ihr.2.2]
        have hlen : capacity -
            (outCount + (((oracle pos).map (rebaseEvent (pos : Int))).take
              (capacity - outCount)).length) =
            capacity - outCount - ((oracle pos).map (rebaseEvent (pos : Int))).length := by
          simp only [List.length_take, List.length_map]
          omega
        rw [hlen]
    · rw [autoLoop]
      simp [dif_neg h]

/-- C2. For every ascending-sorted MIDI input, every chunk of the
automation loop receives exactly the events with
`chunk.pos ≤ sample_offset < chunk.chunk_end`, rebased to `offset - pos`;
chunk cursors never move backwards (so an event with `offset < pos` —
already consumed or before the start — is never delivered nor rescanned);
and the loop's MIDI output is the concatenation of the per-chunk backend
outputs, each rebased by `+pos`, truncated silently at the caller-provided
remaining capacity. -/
theorem auto_midi_slicing (numParams : Int) (oracle : MidiOracle)
    (nframes capacity pos : Nat) (pcs : List MH_ParamChange)
    (midis : List MH_MidiEvent) (outCount : Nat)
    (hsorted : midis.Pairwise (fun a b => a.sample_offset ≤ b.sample_offset)) :
    (∀ ch ∈ (autoLoop numParams oracle nframes capacity pos pcs midis outCount).1,
      pos ≤ ch.pos) ∧
    (∀ ch ∈ (autoLoop numParams oracle nframes capacity pos pcs midis outCount).1,
      ch.call.midi =
        (midis.filter (fun ev =>
            decide ((ch.pos : Int) ≤ ev.sample_offset) &&
            decide (ev.sample_offset < (ch.chunk_end : Int)))).map
          (rebaseEvent (-(ch.pos : Int)))) ∧
    (autoLoop numParams oracle nframes capacity pos pcs midis outCount).2 =
      (((autoLoop numParams oracle nframes capacity pos pcs midis outCount).1.map
          (fun ch => (oracle ch.pos).map (rebaseEvent (ch.pos : Int)))).flatten).take
        (capacity - outCount) :=
  auto_midi_slice_aux (nframes - pos) numParams oracle nframes capacity pos pcs
    midis outCount (le_refl _) hsorted

/-- Witness for C2: two sorted events at offsets {1, 5} with a chunk split
at 5; per-chunk slices, rebasing and output truncation hold at this
input. -/
theorem auto_midi_slicing_witness :
    (List.Pairwise (fun a b : MH_MidiEvent => a.sample_offset ≤ b.sample_offset)
      [⟨1, 144, 60, 100⟩, ⟨5, 128, 60, 0⟩]) ∧
    ((autoLoop 4 (fun _ => [⟨2, 200, 1, 1⟩]) 8 3 0 [⟨5, 0, 1/2⟩]
        [⟨1, 144, 60, 100⟩, ⟨5, 128, 60, 0⟩] 0).2 =
      (((autoLoop 4 (fun _ => [⟨2, 200, 1, 1⟩]) 8 3 0 [⟨5, 0, 1/2⟩]
          [⟨1, 144, 60, 100⟩, ⟨5, 128, 60, 0⟩] 0).1.map
          (fun ch => ((fun _ => [⟨2, 200, 1, 1⟩]) ch.pos).map
            (rebaseEvent (ch.pos : Int)))).flatten).take (3 - 0)) :=
  ⟨by decide,
    (auto_midi_slicing 4 (fun _ => [⟨2, 200, 1, 1⟩]) 8 3 0 [⟨5, 0, 1/2⟩]
      [⟨1, 144, 60, 100⟩, ⟨5, 128, 60, 0⟩] 0 (by decide)).2.2⟩

/-! ## C4 and C5: the SPSC MIDI ring buffer -/

theorem mod_of_lt_two_mul {c x : Nat} (hc : 0 < c) (h : x < 2 * c) :
    x % c = if x < c then x else x - c := by
  split
  · exact Nat.mod_eq_of_lt (by assumption)
  · have hcx : c ≤ x := not_lt.mp (by assumption)
    have h2 : x - c < c := by omega
    have h3 : x = c + (x - c) := by omega
    calc x % c = (c + (x - c)) % c := by rw [← h3]
    _ = (x - c) % c := Nat.add_mod_left _ _
    _ = x - c := Nat.mod_eq_of_lt h2

theorem add_mod_inj {c r i j : Nat} (hc : 0 < c) (hi : i < c) (hj : j < c)
    (h : (r + i) % c = (r + j) % c) : i = j := by
  have hr : r % c < c := Nat.mod_lt r hc
  have h1 : (r % c + i) % c = (r % c + j) % c := by
    rw [Nat.mod_add_mod, Nat.mod_add_mod]
    exact h
  set r2 := r % c with hr2
  rw [mod_of_lt_two_mul hc (by omega), mod_of_lt_two_mul hc (by omega)] at h1
  split_ifs at h1 <;> omega

theorem rb_cap_pos (rb : MH_MidiRingBuffer) (h : RBWF rb) : 0 < rb.capacity := by
  obtain ⟨k, hk⟩ := h.pow
  rw [hk]
  positivity

theorem rb_and_mask (rb : MH_MidiRingBuffer) (h : RBWF rb) (x : Nat) :
    x &&& rb.mask = x % rb.capacity := by
  obtain ⟨k, hk⟩ := h.pow
  rw [h.mask_eq, hk]
  exact Nat.and_pow_two_sub_one_eq_mod x k

theorem rbUnread_eq (rb : MH_MidiRingBuffer) (h : RBWF rb) :
    rbUnread rb = if rb.read_pos ≤ rb.write_pos
      then rb.write_pos - rb.read_pos
      else rb.capacity + rb.write_pos - rb.read_pos := by
  have hw := h.w_lt
  have hr := h.r_lt
  have hc := rb_cap_pos rb h
  unfold rbUnread
  rw [mod_of_lt_two_mul hc (by omega)]
  split_ifs <;> omega

theorem rbUnread_lt (rb : MH_MidiRingBuffer) (h : RBWF rb) :
    rbUnread rb < rb.capacity :=
  Nat.mod_lt _ (rb_cap_pos rb h)

theorem rb_w_eq (rb : MH_MidiRingBuffer) (h : RBWF rb) :
    (rb.read_pos + rbUnread rb) % rb.capacity = rb.write_pos := by
  have hw := h.w_lt
  have hr := h.r_lt
  have hc := rb_cap_pos rb h
  rw [rbUnread_eq rb h]
  split_ifs with h1
  · rw [mod_of_lt_two_mul hc (by omega)]
    split_ifs <;> omega
  · rw [mod_of_lt_two_mul hc (by omega)]
    split_ifs <;> omega

theorem unread_inc {c w r : Nat} (hc : 0 < c) (hw : w < c) (hr : r < c)
    (hne : (w + 1) % c ≠ r) :
    (c + (w + 1) % c - r) % c = (c + w - r) % c + 1 := by
  have e1 : (w + 1) % c = if w + 1 < c then w + 1 else 0 := by
    rw [mod_of_lt_two_mul hc (by omega)]
    split_ifs <;> omega
  rw [e1] at hne ⊢
  by_cases h1 : w + 1 < c
  · rw [if_pos h1] at hne ⊢
    rw [mod_of_lt_two_mul hc (by omega), mod_of_lt_two_mul hc (by omega)]
    split_ifs <;> omega
  · rw [if_neg h1] at hne ⊢
    rw [mod_of_lt_two_mul hc (by omega), mod_of_lt_two_mul hc (by omega)]
    split_ifs <;> omega

theorem unread_pos_iff {c w r : Nat} (hc : 0 < c) (hw : w < c) (hr : r < c) :
    0 < (c + w - r) % c ↔ r ≠ w := by
  rw [mod_of_lt_two_mul hc (by omega)]
  split_ifs <;> omega

theorem unread_shift {c w r : Nat} (hc : 0 < c) (hw : w < c) (hr : r < c)
    (mm : Nat) (hmm : mm ≤ (c + w - r) % c) :
    (c + w - (r + mm) % c) % c = (c + w - r) % c - mm := by
  have hd : (c + w - r) % c = if r ≤ w then w - r else c + w - r := by
    rw [mod_of_lt_two_mul hc (by omega)]
    split_ifs <;> omega
  rw [hd] at hmm ⊢
  have e1 : (r + mm) % c = if r + mm < c then r + mm else r + mm - c := by
    refine mod_of_lt_two_mul hc ?_
    split_ifs at hmm <;> omega
  rw [e1]
  split_ifs at hmm ⊢ with h1 h2 h3 <;>
    (rw [mod_of_lt_two_mul hc (by omega)]; split_ifs <;> omega)

theorem rbList_length (rb : MH_MidiRingBuffer) :
    (rbList rb).length = rbUnread rb := by
  simp [rbList]

/-- C4. On a well-formed ring-buffer state, `push` fails exactly when
`capacity - 1` unread events are queued (advancing the write cursor would
make it equal the read cursor); a failing push changes nothing (the event
is dropped), a successful push appends the new event after the existing
unread events without disturbing any of them, `pop` removes exactly the
oldest unread event, and both operations preserve well-formedness — so
along every sequence of operations push/pop behave as a FIFO queue that
never overwrites unread data. -/
theorem ringbuffer_push_pop_fifo (rb : MH_MidiRingBuffer) (ev : MH_MidiEvent)
    (h : RBWF rb) :
    ((mh_midi_ringbuffer_push rb ev).1 = false ↔
      rbUnread rb = rb.capacity - 1) ∧
    ((mh_midi_ringbuffer_push rb ev).1 = false →
      (mh_midi_ringbuffer_push rb ev).2 = rb) ∧
    ((mh_midi_ringbuffer_push rb ev).1 = true →
      rbList (mh_midi_ringbuffer_push rb ev).2 = rbList rb ++ [ev]) ∧
    RBWF (mh_midi_ringbuffer_push rb ev).2 ∧
    (∀ x xs, rbList rb = x :: xs →
      (mh_midi_ringbuffer_pop rb).1 = some x ∧
      rbList (mh_midi_ringbuffer_pop rb).2 = xs) ∧
    RBWF (mh_midi_ringbuffer_pop rb).2 := by
  have hw := h.w_lt
  have hr := h.r_lt
  have hc := rb_cap_pos rb h
  have hmask := rb_and_mask rb h
  have hiff : ((rb.write_pos + 1) &&& rb.mask = rb.read_pos) ↔
      rbUnread rb = rb.capacity - 1 := by
    rw [hmask, rbUnread_eq rb h, mod_of_lt_two_mul hc (by omega)]
    split_ifs <;> omega
  refine ⟨?_, ?_, ?_, ?_, ?_, ?_⟩
  · simp only [mh_midi_ringbuffer_push]
    split_ifs with hfull
    · simpa using hiff.mp hfull
    · exact iff_of_false (by simp) (fun hd => hfull (hiff.mpr hd))
  · simp only [mh_midi_ringbuffer_push]
    split_ifs with hfull
    · intro _
      rfl
    · intro hfalse
      simp at hfalse
  · simp only [mh_midi_ringbuffer_push]
    split_ifs with hfull
    · intro htrue
      simp at htrue
    · intro _
      have hne : (rb.write_pos + 1) % rb.capacity ≠ rb.read_pos := by
        rw [← hmask]
        exact hfull
      have hd' : rbUnread { rb with
          buffer := fun i => if i = rb.write_pos then ev else rb.buffer i
          write_pos := (rb.write_pos + 1) &&& rb.mask } = rbUnread rb + 1 := by
        show (rb.capacity + ((rb.write_pos + 1) &&& rb.mask) - rb.read_pos) %
            rb.capacity = _
        rw [hmask]
        exact unread_inc hc hw hr hne
      unfold rbList
      rw [hd']
      simp only
      rw [List.range_succ, List.map_append]
      have hlast : (fun i =>
          (fun j => if j = rb.write_pos then ev else rb.buffer j)
            ((rb.read_pos + i) % rb.capacity)) (rbUnread rb) = ev := by
        simp [rb_w_eq rb h]
      refine congrArg₂ _ ?_ (by simpa using hlast)
      refine List.map_congr_left ?_
      intro i hi
      have hilt : i < rbUnread rb := List.mem_range.mp hi
      have hdc : rbUnread rb < rb.capacity := rbUnread_lt rb h
      have hneq : (rb.read_pos + i) % rb.capacity ≠ rb.write_pos := by
        intro heq
        rw [← rb_w_eq rb h] at heq
        have := add_mod_inj hc (by omega) hdc heq
        omega
      simp only [if_neg hneq]
  · simp only [mh_midi_ringbuffer_push]
    split_ifs with hfull
    · exact h
    · exact ⟨h.pow, h.mask_eq,
        by rw [hmask]; exact Nat.mod_lt _ hc, h.r_lt⟩
  · intro x xs hxs
    have hdpos : 0 < rbUnread rb := by
      have hlen := rbList_length rb
      rw [hxs] at hlen
      simp only [List.length_cons] at hlen
      omega
    have hne : rb.read_pos ≠ rb.write_pos := by
      have := (unread_pos_iff hc hw hr).mp (by
        show 0 < (rb.capacity + rb.write_pos - rb.read_pos) % rb.capacity
        exact hdpos)
      exact this
    obtain ⟨k, hk⟩ : ∃ k, rbUnread rb = k + 1 := ⟨rbUnread rb - 1, by omega⟩
    have hlist : rbList rb =
        rb.buffer (rb.read_pos % rb.capacity) ::
          (List.range k).map
            (fun i => rb.buffer ((rb.read_pos + (i + 1)) % rb.capacity)) := by
      unfold rbList
      rw [hk, List.range_succ_eq_map]
      simp [List.map_map, Function.comp]
    have hx : x = rb.buffer rb.read_pos := by
      rw [hlist] at hxs
      have := (List.cons.injEq _ _ _ _).mp hxs
      rw [Nat.mod_eq_of_lt hr] at this
      exact this.1.symm
    have hxs2 : xs = (List.range k).map
        (fun i => rb.buffer ((rb.read_pos + (i + 1)) % rb.capacity)) := by
      rw [hlist] at hxs
      exact ((List.cons.injEq _ _ _ _).mp hxs).2.symm
    unfold mh_midi_ringbuffer_pop
    rw [if_neg hne]
    refine ⟨by rw [hx], ?_⟩
    have hd2 : rbUnread { rb with read_pos := (rb.read_pos + 1) &&& rb.mask } = k := by
      show (rb.capacity + rb.write_pos - ((rb.read_pos + 1) &&& rb.mask)) %
          rb.capacity = k
      rw [hmask]
      have := unread_shift hc hw hr 1 (by
        show 1 ≤ rbUnread rb
        omega)
      rw [this]
      show rbUnread rb - 1 = k
      omega
    unfold rbList
    rw [hd2, hxs2]
    simp only
    refine List.map_congr_left ?_
    intro i hi
    have : (((rb.read_pos + 1) &&& rb.mask) + i) % rb.capacity =
        (rb.read_pos + (i + 1)) % rb.capacity := by
      rw [hmask, Nat.mod_add_mod]
      refine congrArg (fun t => t % rb.capacity) ?_
      omega
    rw [this]
  · unfold mh_midi_ringbuffer_pop
    split_ifs with hempty
    · exact h
    · exact ⟨h.pow, h.mask_eq, hw,
        by rw [hmask]; exact Nat.mod_lt _ hc⟩

/-- Witness for C4 on the demo buffer (capacity 8, two queued events):
push succeeds and appends, and push fails exactly at 7 queued events. -/
theorem ringbuffer_push_pop_fifo_witness :
    RBWF demoRB ∧
    ((mh_midi_ringbuffer_push demoRB demoEvent).1 = true →
      rbList (mh_midi_ringbuffer_push demoRB demoEvent).2 =
        rbList demoRB ++ [demoEvent]) ∧
    ((mh_midi_ringbuffer_push demoRB demoEvent).1 = false ↔
      rbUnread demoRB = demoRB.capacity - 1) := by
  have hwf : RBWF demoRB := ⟨⟨3, rfl⟩, rfl, by decide, by decide⟩
  exact ⟨hwf, (ringbuffer_push_pop_fifo demoRB demoEvent hwf).2.2.1,
    (ringbuffer_push_pop_fifo demoRB demoEvent hwf).1⟩

theorem popAllLoop_spec (buffer : Nat → MH_MidiEvent) (c : Nat)
    (hpow : ∃ k, c = 2 ^ k) (w : Nat) (hw : w < c) :
    ∀ (fuel read : Nat), read < c →
      popAllLoop buffer (c - 1) w read fuel =
        ((List.range (min ((c + w - read) % c) fuel)).map
            (fun i => buffer ((read + i) % c)),
         (read + min ((c + w - read) % c) fuel) % c) := by
  have hc : 0 < c := by
    obtain ⟨k, hk⟩ := hpow
    rw [hk]
    positivity
  have hmm : ∀ x : Nat, x &&& (c - 1) = x % c := by
    intro x
    obtain ⟨k, hk⟩ := hpow
    rw [hk]
    exact Nat.and_pow_two_sub_one_eq_mod x k
  intro fuel
  induction fuel with
  | zero =>
    intro read hread
    simp [popAllLoop, Nat.mod_eq_of_lt hread]
  | succ fuel ih =>
    intro read hread
    by_cases hrw : read = w
    · subst hrw
      have hz : (c + read - read) % c = 0 := by
        have he : c + read - read = c := by omega
        rw [he, Nat.mod_self]
      simp [popAllLoop, hz, Nat.mod_eq_of_lt hread]
    · have hd1 : 1 ≤ (c + w - read) % c := by
        have := (unread_pos_iff hc hw hread).mpr (Ne.symm (fun he => hrw he.symm))
        omega
      have hdec := unread_shift hc hw hread 1 hd1
      have hr1 : (read + 1) % c < c := Nat.mod_lt _ hc
      have ihr := ih ((read + 1) % c) hr1
      rw [hdec] at ihr
      simp only [popAllLoop, if_neg hrw, hmm, ihr]
      have hmin : min ((c + w - read) % c) (fuel + 1) =
          min ((c + w - read) % c - 1) fuel + 1 := by omega
      rw [hmin, List.range_succ_eq_map, List.map_cons]
      refine Prod.ext ?_ ?_
      · refine congrArg₂ List.cons ?_ ?_
        · rw [Nat.add_zero, Nat.mod_eq_of_lt hread]
        · rw [List.map_map]
          refine List.map_congr_left ?_
          intro i hi
          simp only [Function.comp_apply]
          rw [Nat.mod_add_mod]
          refine congrArg (fun t => buffer (t % c)) ?_
          omega
      · simp only
        rw [Nat.mod_add_mod]
        refine congrArg (fun t => t % c) ?_
        omega

/-- C5. For well-formed state and positive `max`, `pop_all` returns exactly
the first `min(unread, max)` queued events in FIFO order, leaves exactly
the remaining events queued for the next call, and draining an empty queue
returns no events and leaves the state (hence the read cursor)
unchanged. -/
theorem ringbuffer_pop_all_drains (rb : MH_MidiRingBuffer) (max_events : Int)
    (h : RBWF rb) (hm : 0 < max_events) :
    (mh_midi_ringbuffer_pop_all rb max_events).1 =
      (rbList rb).take max_events.toNat ∧
    rbList (mh_midi_ringbuffer_pop_all rb max_events).2 =
      (rbList rb).drop max_events.toNat ∧
    (mh_midi_ringbuffer_pop_all rb max_events).1.length =
      min (rbUnread rb) max_events.toNat ∧
    (rbList rb = [] → (mh_midi_ringbuffer_pop_all rb max_events).2 = rb) ∧
    RBWF (mh_midi_ringbuffer_pop_all rb max_events).2 := by
  have hw := h.w_lt
  have hr := h.r_lt
  have hc := rb_cap_pos rb h
  have hle : ¬ max_events ≤ 0 := by omega
  have hmpos : 0 < max_events.toNat := by omega
  have hspec := popAllLoop_spec rb.buffer rb.capacity h.pow rb.write_pos hw
    max_events.toNat rb.read_pos hr
  have hmask' : rb.mask = rb.capacity - 1 := h.mask_eq
  have hd : (rb.capacity + rb.write_pos - rb.read_pos) % rb.capacity =
      rbUnread rb := rfl
  rw [hd] at hspec
  have hspec2 : popAllLoop rb.buffer rb.mask rb.write_pos rb.read_pos
      max_events.toNat =
      ((List.range (min (rbUnread rb) max_events.toNat)).map
          (fun i => rb.buffer ((rb.read_pos + i) % rb.capacity)),
       (rb.read_pos + min (rbUnread rb) max_events.toNat) % rb.capacity) := by
    rw [hmask']
    exact hspec
  simp only [mh_midi_ringbuffer_pop_all, if_neg hle, hspec2]
  have htake : (rbList rb).take max_events.toNat =
      (List.range (min (rbUnread rb) max_events.toNat)).map
        (fun i => rb.buffer ((rb.read_pos + i) % rb.capacity)) := by
    unfold rbList
    rw [← List.map_take, List.take_range, Nat.min_comm]
  refine ⟨htake.symm, ?_, by simp, ?_, ?_⟩
  · simp only [List.length_map, List.length_range]
    by_cases hz : min (rbUnread rb) max_events.toNat = 0
    · have hd0 : rbUnread rb = 0 := by omega
      rw [hz]
      simp only [Nat.lt_irrefl, if_false]
      unfold rbList
      rw [hd0]
      simp
    · rw [if_pos (by omega)]
      have hmmle : min (rbUnread rb) max_events.toNat ≤ rbUnread rb :=
        Nat.min_le_left _ _
      have hd2 : rbUnread { rb with
          read_pos := (rb.read_pos + min (rbUnread rb) max_events.toNat) %
            rb.capacity } = rbUnread rb - min (rbUnread rb) max_events.toNat := by
        show (rb.capacity + rb.write_pos -
            (rb.read_pos + min (rbUnread rb) max_events.toNat) % rb.capacity) %
              rb.capacity = _
        exact unread_shift hc hw hr _ hmmle
      unfold rbList
      rw [hd2]
      simp only
      refine List.ext_getElem ?_ ?_
      · simp only [List.length_map, List.length_range, List.length_drop]
        omega
      · intro i h1 h2
        simp only [List.getElem_map, List.getElem_range, List.getElem_drop]
        rw [Nat.mod_add_mod]
        refine congrArg (fun t => rb.buffer (t % rb.capacity)) ?_
        simp only [List.length_map, List.length_range, List.length_drop] at h1 h2
        omega
  · intro hnil
    have hd0 : rbUnread rb = 0 := by
      have := rbList_length rb
      rw [hnil] at this
      simpa using this.symm
    rw [hd0]
    simp
  · split_ifs with hpos
    · exact ⟨h.pow, h.mask_eq, hw, Nat.mod_lt _ hc⟩
    · exact h

/-- Witness for C5 on the demo buffer (two queued events), draining with
`max = 1`: one event comes out, one stays queued. -/
theorem ringbuffer_pop_all_drains_witness :
    (RBWF demoRB ∧ (0 : Int) < 1) ∧
    (mh_midi_ringbuffer_pop_all demoRB 1).1 = (rbList demoRB).take 1 ∧
    rbList (mh_midi_ringbuffer_pop_all demoRB 1).2 = (rbList demoRB).drop 1 ∧
    (mh_midi_ringbuffer_pop_all demoRB 1).1.length = min (rbUnread demoRB) 1 := by
  have hwf : RBWF demoRB := ⟨⟨3, rfl⟩, rfl, by decide, by decide⟩
  have hthm := ringbuffer_pop_all_drains demoRB 1 hwf (by decide)
  exact ⟨⟨hwf, by decide⟩, hthm.1, hthm.2.1, hthm.2.2.1⟩

end Minihost
